import Mathlib

/-!
Verification of the `horizont` LDA implementation (`horizont/lda.py`).

The development shallowly embeds the data model and operations of the
`LDA` class: the count tables `nzw_`, `ndz_`, `nz_`, the token stream
`WS`/`DS`/`ZS`, the reusable buffer of uniform draws `self._rands`, the
Gibbs sweep `_sample_topics`, the collapsed log-likelihood
`_loglikelihood`, the `fit` pipeline, and the `score` entry point.

Counts are embedded as unbounded integers (the numpy `int` tables never
approach the word size), probabilities and uniform draws as rationals,
and the external log-gamma function (`scipy.special.gammaln`) as an
arbitrary function parameter.  The numpy random source is an external
collaborator; it is embedded as streams of raw integer and uniform
draws.  Parts of the package outside `lda.py` (the Cython inner loop
`horizont._lda._sample_topics`, the per-document scorer
`horizont._lda._score_doc`, and `horizont.utils.matrix_to_lists`) are
modelled from the specification where noted.
-/

/-- Models a `numpy.random.RandomState`: a deterministic stream of raw
nonnegative integer draws (consumed by `randint` and by `shuffle`) and a
stream of uniform draws in `[0,1)` (consumed by `rand`).  The generator
itself is an external collaborator, so the streams are abstract. -/
structure RandomState where
  ints : ℕ → ℕ
  unis : ℕ → ℚ

/-- Models one token occurrence: its word id (`WS[i]`), document id
(`DS[i]`) and current topic assignment (`ZS[i]`). -/
structure Token where
  w : ℕ
  d : ℕ
  z : ℕ
deriving DecidableEq, Repr

/-- Models the three count tables `self.nzw_`, `self.ndz_` and
`self.nz_` as total functions (cells outside the allocated shape are
never touched and stay at zero). -/
structure Counts where
  nzw : ℕ → ℕ → ℤ
  ndz : ℕ → ℕ → ℤ
  nz : ℕ → ℤ

/-- Models the freshly allocated all-zero tables of `LDA._initialize`. -/
def zeroCounts : Counts := ⟨fun _ _ => 0, fun _ _ => 0, fun _ => 0⟩

/-- Models the three `+= 1` updates performed for a token: increment
`nzw_[t.z, t.w]`, `ndz_[t.d, t.z]` and `nz_[t.z]`. -/
def incrC (c : Counts) (t : Token) : Counts :=
  ⟨fun k w => if t.z = k ∧ t.w = w then c.nzw k w + 1 else c.nzw k w,
   fun d k => if t.d = d ∧ t.z = k then c.ndz d k + 1 else c.ndz d k,
   fun k => if t.z = k then c.nz k + 1 else c.nz k⟩

/-- Models the three `-= 1` updates removing a token's contribution. -/
def decrC (c : Counts) (t : Token) : Counts :=
  ⟨fun k w => if t.z = k ∧ t.w = w then c.nzw k w - 1 else c.nzw k w,
   fun d k => if t.d = d ∧ t.z = k then c.ndz d k - 1 else c.ndz d k,
   fun k => if t.z = k then c.nz k - 1 else c.nz k⟩

/-- Number of tokens of `ts` assigned topic `k` and word `w`: the value
the cell `nzw_[k, w]` must hold when the tables are in sync with the
assignment. -/
def cntNzw (ts : List Token) (k w : ℕ) : ℤ :=
  (ts.countP (fun t => decide (t.z = k ∧ t.w = w)) : ℤ)

/-- Number of tokens of `ts` in document `d` assigned topic `k`. -/
def cntNdz (ts : List Token) (d k : ℕ) : ℤ :=
  (ts.countP (fun t => decide (t.d = d ∧ t.z = k)) : ℤ)

/-- Number of tokens of `ts` assigned topic `k`. -/
def cntNz (ts : List Token) (k : ℕ) : ℤ :=
  (ts.countP (fun t => decide (t.z = k)) : ℤ)

/-- Coupling invariant: the count tables agree, cell by cell, with the
counts derived from the current token assignment. -/
def CEq (c : Counts) (ts : List Token) : Prop :=
  (∀ k w, c.nzw k w = cntNzw ts k w) ∧
  (∀ d k, c.ndz d k = cntNdz ts d k) ∧
  (∀ k, c.nz k = cntNz ts k)

/-- Modelled from the spec: `horizont.utils.matrix_to_lists` is outside
`lda.py`; per the spec it flattens the document-term matrix into one
`(word_id, doc_id)` pair per token occurrence, document-major and in
ascending word order.  This helper emits the pairs of one document row,
starting at word index `w`. -/
def rowTokensGo (d : ℕ) : ℕ → List ℕ → List (ℕ × ℕ)
  | _, [] => []
  | w, c :: rest => List.replicate c (w, d) ++ rowTokensGo d (w + 1) rest

/-- Modelled from the spec: the document-major flattening loop of
`matrix_to_lists`, starting at document index `d`. -/
def mtlGo : ℕ → List (List ℕ) → List (ℕ × ℕ)
  | _, [] => []
  | d, row :: rest => rowTokensGo d 0 row ++ mtlGo (d + 1) rest

/-- Modelled from the spec: `horizont.utils.matrix_to_lists`, producing
the flat token stream `WS`/`DS` from the input matrix. -/
def matrix_to_lists (X : List (List ℕ)) : List (ℕ × ℕ) := mtlGo 0 X

/-- Total token count `np.sum(X)` of a document-term matrix. -/
def totalX (X : List (List ℕ)) : ℕ := (X.map List.sum).sum

/-- Column count `X.shape[1]` of the embedded matrix. -/
def ncols (X : List (List ℕ)) : ℕ := (X.headD []).length

/-- Models the random-assignment loop of `LDA._initialize`: for token
`i` draw `z_new = random_state.randint(n_topics)` (embedded as
`ints i % K`) and perform the three increments.  Returns the assigned
token list and the final tables. -/
def initGo (K : ℕ) (ints : ℕ → ℕ) : List (ℕ × ℕ) → ℕ → Counts → List Token × Counts
  | [], _, c => ([], c)
  | wd :: rest, i, c =>
      let t : Token := ⟨wd.1, wd.2, ints i % K⟩
      let q := initGo K ints rest (i + 1) (incrC c t)
      (t :: q.1, q.2)

/-- Models `LDA._initialize` on matrix `X` with `n_topics = K`: allocate
zero tables, flatten `X` and assign initial topics from the random
source. -/
def initCore (K : ℕ) (ints : ℕ → ℕ) (X : List (List ℕ)) : List Token × Counts :=
  initGo K ints (matrix_to_lists X) 0 zeroCounts

/-- Failure surfaced by `LDA._initialize`.  The source performs no shape
validation whatsoever; the only way it can raise is
`random_state.randint(n_topics)` with a non-positive bound, which is
numpy's generic `ValueError`. -/
inductive InitErr where
  | valueError
deriving DecidableEq, Repr

/-- Models `LDA._initialize` including its only failure mode: with
`n_topics = 0` the first call to `randint` raises, but only if the
matrix has at least one token; otherwise the loop body never runs and
the method returns normally. -/
def ldaInit (K : ℕ) (ints : ℕ → ℕ) (X : List (List ℕ)) :
    Except InitErr (List Token × Counts) :=
  if K = 0 ∧ matrix_to_lists X ≠ [] then .error .valueError
  else .ok (initCore K ints X)

/-- Models the unnormalized conditional distribution of the collapsed
Gibbs sampler (spec 4.2 step 2, the inner loop being Cython code outside
`lda.py`): `score[k] = (ndz[d,k] + alpha) * (nzw[k,w] + eta) / (nz[k] + eta_sum)`
with `eta_sum = eta * V`. -/
def topicScores (c : Counts) (alpha eta : ℚ) (V K : ℕ) (w d : ℕ) : List ℚ :=
  (List.range K).map fun k =>
    ((c.ndz d k : ℚ) + alpha) * ((c.nzw k w : ℚ) + eta) / ((c.nz k : ℚ) + eta * V)

/-- Models inverse-CDF selection over a cumulative score list: the first
index whose cumulative mass reaches the threshold (non-strict), with the
last index as the fallback when the draw exhausts the mass. -/
def selectAux (thresh : ℚ) : ℚ → List ℚ → ℕ
  | _, [] => 0
  | _, [_] => 0
  | acc, s :: s2 :: rest =>
      if thresh ≤ acc + s then 0 else 1 + selectAux thresh (acc + s) (s2 :: rest)

/-- Models spec 4.2 step 3: scale the draw by the total mass and select
by inverse CDF. -/
def selectTopic (scores : List ℚ) (r : ℚ) : ℕ :=
  selectAux (r * scores.sum) 0 scores

/-- Models the per-token resampling of spec 4.2 (Cython inner loop):
remove the token's contribution, draw the new topic from the conditional
distribution using draw `r`, and add the contribution back. -/
def sampleToken (alpha eta : ℚ) (V K : ℕ) (c : Counts) (t : Token) (r : ℚ) :
    Token × Counts :=
  let c1 := decrC c t
  let t' : Token := ⟨t.w, t.d, selectTopic (topicScores c1 alpha eta V K t.w t.d) r⟩
  (t', incrC c1 t')

/-- Models one full sweep over the token stream (spec 4.2): tokens are
visited in their fixed stream order, draw `i` comes from the pool at
cursor `i` wrapping around, and the tables are updated in place. -/
def sweepGo (alpha eta : ℚ) (V K : ℕ) (pool : List ℚ) :
    List Token → Counts → ℕ → List Token × Counts
  | [], c, _ => ([], c)
  | t :: rest, c, i =>
      let p := sampleToken alpha eta V K c t (pool.getD (i % pool.length) 0)
      let q := sweepGo alpha eta V K pool rest p.2 (i + 1)
      (p.1 :: q.1, q.2)

/-- Modelled from the spec: numpy's in-place `shuffle` of the draw pool
(an external collaborator).  Each step consumes one raw integer draw to
pick the next element of the permutation; the buffer is permuted, never
regenerated. -/
def shuffleGo (ints : ℕ → ℕ) : ℕ → ℕ → List ℚ → List ℚ
  | _, 0, _ => []
  | _, _ + 1, [] => []
  | pos, fuel + 1, a :: l =>
      let j := ints pos % (a :: l).length
      (a :: l).getD j 0 :: shuffleGo ints (pos + 1) fuel ((a :: l).eraseIdx j)

/-- Models `random_state.shuffle(rands)` starting at stream position
`pos` of the integer draw stream. -/
def shuffle (ints : ℕ → ℕ) (pos : ℕ) (l : List ℚ) : List ℚ :=
  shuffleGo ints pos l.length l

/-- Sweep state threaded by `LDA._fit`: the token stream with its
current assignment, the count tables and `self._rands`. -/
def SweepSt : Type := List Token × Counts × List ℚ

/-- Models `LDA._sample_topics`: re-derive the random state from the
stored seed (`check_random_state(self.random_state)` on line 227 ignores
the generator passed in by `_fit`, so with an integer seed every sweep
shuffles with an identical draw sequence), shuffle `self._rands` in
place, then run the Cython sweep over the shuffled pool. -/
def sweepStep (seed : RandomState) (alpha eta : ℚ) (V K : ℕ) (s : SweepSt) : SweepSt :=
  let pool := shuffle seed.ints 0 s.2.2
  let q := sweepGo alpha eta V K pool s.1 s.2.1 0
  (q.1, q.2, pool)

/-- Iterates `n` sweeps of `LDA._sample_topics`. -/
def sweepIter (seed : RandomState) (alpha eta : ℚ) (V K : ℕ) : ℕ → SweepSt → SweepSt
  | 0, s => s
  | n + 1, s => sweepStep seed alpha eta V K (sweepIter seed alpha eta V K n s)

/-- Models the static method `LDA._loglikelihood` (lines 193-224) with
the external `scipy.special.gammaln` passed in as `lg`.  The inner sums
skip zero-count cells exactly as the source does (`if nzw[k, w] > 0`,
`if ndz[d, k] > 0`); `nd[d]` is the row sum of `ndz`. -/
def llWZ (lg : ℚ → ℚ) (c : Counts) (K V D : ℕ) (alpha eta : ℚ) : ℚ :=
  (K : ℚ) * lg (eta * V)
  + (Finset.range K).sum (fun k =>
      - lg (eta * V + (c.nz k : ℚ))
      + (Finset.range V).sum (fun w =>
          if 0 < c.nzw k w then lg (eta + (c.nzw k w : ℚ)) - lg eta else 0))
  + (Finset.range D).sum (fun d =>
      lg (alpha * K) - lg (alpha * K + ((Finset.range K).sum fun k => (c.ndz d k : ℚ)))
      + (Finset.range K).sum (fun k =>
          if 0 < c.ndz d k then lg (alpha + (c.ndz d k : ℚ)) - lg alpha else 0))

/-- States the spec's zero-skipping claim for comparison: the same
double sums as `llWZ` but taken over all cells with no skipping. -/
def llWZFull (lg : ℚ → ℚ) (c : Counts) (K V D : ℕ) (alpha eta : ℚ) : ℚ :=
  (K : ℚ) * lg (eta * V)
  + (Finset.range K).sum (fun k =>
      - lg (eta * V + (c.nz k : ℚ))
      + (Finset.range V).sum (fun w => lg (eta + (c.nzw k w : ℚ)) - lg eta))
  + (Finset.range D).sum (fun d =>
      lg (alpha * K) - lg (alpha * K + ((Finset.range K).sum fun k => (c.ndz d k : ℚ)))
      + (Finset.range K).sum (fun k => lg (alpha + (c.ndz d k : ℚ)) - lg alpha))

/-- Models the point estimate `components_ = (nzw_ + eta) / rowsum`
computed on lines 142-143. -/
def phiOf (c : Counts) (eta : ℚ) (V : ℕ) : ℕ → ℕ → ℚ :=
  fun k w => ((c.nzw k w : ℚ) + eta) / (Finset.range V).sum (fun w' => (c.nzw k w' : ℚ) + eta)

/-- Models the point estimate `theta_ = (ndz_ + alpha) / rowsum`
computed on lines 145-146. -/
def thetaOf (c : Counts) (alpha : ℚ) (K : ℕ) : ℕ → ℕ → ℚ :=
  fun d k => ((c.ndz d k : ℚ) + alpha) / (Finset.range K).sum (fun k' => (c.ndz d k' : ℚ) + alpha)

/-- Models the attribute state of an `LDA` instance.  `Option` fields
record whether the corresponding Python attribute is currently set;
`n_features` stands for the column count (shape metadata) of the
trained tables. -/
structure LDAModel where
  n_topics : ℕ
  n_iter : ℕ
  alpha : ℚ
  eta : ℚ
  seed : RandomState
  rands : List ℚ
  counts : Counts
  n_features : ℕ
  WS : Option (List ℕ)
  DS : Option (List ℕ)
  ZS : Option (List ℕ)
  components : Option (ℕ → ℕ → ℚ)
  phi : Option (ℕ → ℕ → ℚ)
  theta : Option (ℕ → ℕ → ℚ)

/-- Models `LDA.__init__`: store the hyperparameters and fill
`self._rands` with 1000 uniform draws from the seeded generator. -/
def mkLDA (n_topics n_iter : ℕ) (alpha eta : ℚ) (seed : RandomState) : LDAModel where
  n_topics := n_topics
  n_iter := n_iter
  alpha := alpha
  eta := eta
  seed := seed
  rands := (List.range 1000).map seed.unis
  counts := zeroCounts
  n_features := 0
  WS := none
  DS := none
  ZS := none
  components := none
  phi := none
  theta := none

/-- Models `LDA._fit` up to (but not including) the `del` statements:
run `_initialize`, iterate `n_iter` sweeps, derive
`components_`/`phi_`/`theta_`, leaving `WS`/`DS`/`ZS` set. -/
def preFit (m : LDAModel) (X : List (List ℕ)) : LDAModel :=
  let K := m.n_topics
  let V := ncols X
  let p := initCore K m.seed.ints X
  let s := sweepIter m.seed m.alpha m.eta V K m.n_iter (p.1, p.2, m.rands)
  let comp := phiOf s.2.1 m.eta V
  { m with
    counts := s.2.1
    rands := s.2.2
    n_features := V
    WS := some (s.1.map (·.w))
    DS := some (s.1.map (·.d))
    ZS := some (s.1.map (·.z))
    components := some comp
    phi := some comp
    theta := some (thetaOf s.2.1 m.alpha K) }

/-- Models the three `del` statements at the end of `LDA._fit`
(lines 148-151): remove `WS`, `DS` and `ZS`, touching nothing else. -/
def cleanupFit (m : LDAModel) : LDAModel :=
  { m with WS := none, DS := none, ZS := none }

/-- Models `LDA._fit` end to end. -/
def fitLDA (m : LDAModel) (X : List (List ℕ)) : LDAModel :=
  cleanupFit (preFit m X)

/-- Final count tables of a fresh fit with the given configuration. -/
def fitCountsOf (K n_iter : ℕ) (alpha eta : ℚ) (seed : RandomState)
    (X : List (List ℕ)) : Counts :=
  (fitLDA (mkLDA K n_iter alpha eta seed) X).counts

/-- Iterations at which `_fit` reports `loglikelihood()`: every tenth
sweep (before the sweep runs) plus the final call after the loop. -/
def statusIters (n_iter : ℕ) : List ℕ :=
  ((List.range n_iter).filter fun it => it % 10 == 0) ++ [n_iter]

/-- Sequence of `loglikelihood()` values reported by a fresh fit: the
value of `_loglikelihood` on the tables as they stand at each status
iteration. -/
def fitTrajOf (lg : ℚ → ℚ) (K n_iter : ℕ) (alpha eta : ℚ) (seed : RandomState)
    (X : List (List ℕ)) : List ℚ :=
  let m := mkLDA K n_iter alpha eta seed
  let p := initCore K seed.ints X
  (statusIters n_iter).map fun it =>
    llWZ lg (sweepIter seed alpha eta (ncols X) K it (p.1, p.2, m.rands)).2.1
      K (ncols X) X.length alpha eta

/-- Trained `components_` of a fresh fit (the matrix is always present
after `fit`; `getD` only supplies an unused default). -/
def fittedPhi (K n_iter : ℕ) (alpha eta : ℚ) (seed : RandomState)
    (X : List (List ℕ)) : ℕ → ℕ → ℚ :=
  ((fitLDA (mkLDA K n_iter alpha eta seed) X).components).getD (fun _ _ => 0)

/-- Trained `theta_` of a fresh fit. -/
def fittedTheta (K n_iter : ℕ) (alpha eta : ℚ) (seed : RandomState)
    (X : List (List ℕ)) : ℕ → ℕ → ℚ :=
  ((fitLDA (mkLDA K n_iter alpha eta seed) X).theta).getD (fun _ _ => 0)

/-- Failure of one document's particle estimation inside
`horizont._lda._score_doc` (Cython code outside `lda.py`; per the spec
e.g. a word id outside the trained vocabulary).  The error value carries
whatever the underlying code reports; note it has no document-index
field. -/
inductive DocErr where
  | wordOutOfVocab (w : ℕ)
  | invalidState
deriving DecidableEq, Repr

/-- Errors surfaced by `LDA.score`: the `np.testing.assert_equal` shape
check on line 303, or a per-document failure propagated unchanged from
`_score_doc`. -/
inductive ScoreErr where
  | dimensionMismatch (got expected : ℕ)
  | docFail (e : DocErr)
deriving DecidableEq, Repr

/-- Per-document scorer interface: `horizont._lda._score_doc` for a
fixed trained `Phi`, `alpha` and particle count, as a function of the
document row and the draw pool it is handed. -/
def DocScorer : Type := List ℕ → List ℚ → Except DocErr ℚ

/-- Result of a `score` call: the returned log-probabilities (or the
propagated error), the pool contents handed to the scorer for each
document, and the contents of `self._rands` after the call. -/
structure ScoreOutcome where
  result : Except ScoreErr (List ℚ)
  pools : List (List ℚ)
  randsAfter : List ℚ

/-- Models the sequential document loop of `LDA.score` (lines 318-321):
score the document with the current pool, then shuffle the pool in
place, threading the integer draw stream position.  An exception from
`_score_doc` aborts the loop before the shuffle for that document. -/
def scoreLoop (f : DocScorer) (ints : ℕ → ℕ) :
    List (List ℕ) → List ℚ → ℕ → List (List ℚ) × Except DocErr (List ℚ) × List ℚ × ℕ
  | [], pool, pos => ([], .ok [], pool, pos)
  | row :: rest, pool, pos =>
      match f row pool with
      | .error e => ([pool], .error e, pool, pos)
      | .ok v =>
          let pool' := shuffle ints pos pool
          let q := scoreLoop f ints rest pool' (pos + pool.length)
          (pool :: q.1, q.2.1.map (fun l => v :: l), q.2.2)

/-- Draw pool as `LDA.score` prepares it before the document loop
(lines 292-299): with `random_state=None` the live `self._rands` is used
as is; with an explicit seed a sorted copy (`np.sort` returns a new
array) is shuffled once by the fresh generator. -/
def scorePool0 (m : LDAModel) (rsArg : Option RandomState) : List ℚ :=
  match rsArg with
  | none => m.rands
  | some rs => shuffle rs.ints 0 (m.rands.mergeSort (fun a b => decide (a ≤ b)))

/-- Stream position after the pool preparation: the explicit-seed branch
has already consumed one draw per pool element for its initial
shuffle. -/
def scorePos0 (m : LDAModel) (rsArg : Option RandomState) : ℕ :=
  match rsArg with
  | none => 0
  | some _ => m.rands.length

/-- Integer draw stream driving the shuffles inside `score`: the fresh
re-seeded generator with `random_state=None`, the explicit generator
otherwise. -/
def scoreInts (m : LDAModel) (rsArg : Option RandomState) : ℕ → ℕ :=
  match rsArg with
  | none => m.seed.ints
  | some rs => rs.ints

/-- Models `LDA.score` (sequential path, the parallel toggle disabled):
prepare the pool, run the shape assertion, then loop over the rows of
`X`.  With `random_state=None` the loop's shuffles act on the live
`self._rands` (so the model's pool is mutated); with an explicit seed
they act on the sorted copy and `self._rands` is left alone. -/
def scoreLDA (f : DocScorer) (m : LDAModel) (X : List (List ℕ))
    (rsArg : Option RandomState) : ScoreOutcome :=
  if ncols X ≠ m.n_features then
    ⟨.error (.dimensionMismatch (ncols X) m.n_features), [], m.rands⟩
  else
    let q := scoreLoop f (scoreInts m rsArg) X (scorePool0 m rsArg) (scorePos0 m rsArg)
    ⟨q.2.1.mapError .docFail, q.1,
      match rsArg with
      | none => q.2.2.1
      | some _ => m.rands⟩

/-- Conservation property of the count tables (spec 8, Conservation):
the tables all sum to the token count `N`, and `nz` is simultaneously
the row-sum table of `nzw` and the column-sum table of `ndz`. -/
def consv (K V D : ℕ) (N : ℤ) (c : Counts) : Prop :=
  (Finset.range K).sum (fun k => (Finset.range V).sum fun w => c.nzw k w) = N ∧
  (Finset.range D).sum (fun d => (Finset.range K).sum fun k => c.ndz d k) = N ∧
  (Finset.range K).sum (fun k => c.nz k) = N ∧
  (∀ k < K, c.nz k = (Finset.range V).sum fun w => c.nzw k w) ∧
  (∀ k < K, c.nz k = (Finset.range D).sum fun d => c.ndz d k)

/-- Structural invariant of the sweep state: the tables are in sync with
the token assignment, and every token is inside the allocated shape. -/
def InvSt (K V D : ℕ) (s : SweepSt) : Prop :=
  CEq s.2.1 s.1 ∧ ∀ t ∈ s.1, t.w < V ∧ t.d < D ∧ t.z < K

/-- Example random source whose integer draws are all 1 (so a shuffle of
a two-element pool swaps it) and whose uniform draws are all 0. -/
def exSeedOnes : RandomState := ⟨fun _ => 1, fun _ => 0⟩

/-- Example random source whose draws are all 0. -/
def exSeedZero : RandomState := ⟨fun _ => 0, fun _ => 0⟩

/-- Example fitted model used to exercise `score`: a distinguishable
two-element draw pool and a one-column trained Phi. -/
def exModelPool : LDAModel :=
  { mkLDA 2 1 1 1 exSeedOnes with rands := [0, 7], n_features := 1 }

/-- Example fitted model with a two-column trained Phi. -/
def exModelTwoCol : LDAModel :=
  { mkLDA 2 1 1 1 exSeedZero with rands := [0, 7], n_features := 2 }

/-- Example per-document scorer that always succeeds. -/
def exScorerOk : DocScorer := fun _ _ => .ok 0

/-- Example per-document scorer that fails on any row whose first cell
is nonzero (standing for a document whose estimation raises), and
succeeds on the others. -/
def exScorerFail : DocScorer :=
  fun row _ => if row.headD 0 = 0 then .ok 3 else .error (.wordOutOfVocab 7)

theorem countP_middle (p : Token → Bool) (l1 l2 : List Token) (t : Token) :
    (l1 ++ t :: l2).countP p = (l1 ++ l2).countP p + (if p t then 1 else 0) := by
  cases hp : p t <;> simp [List.countP_append, List.countP_cons, hp] <;> omega

theorem cntNzw_middle (l1 l2 : List Token) (t : Token) (k w : ℕ) :
    cntNzw (l1 ++ t :: l2) k w
      = cntNzw (l1 ++ l2) k w + if t.z = k ∧ t.w = w then 1 else 0 := by
  by_cases h : t.z = k ∧ t.w = w <;>
    simp [cntNzw, countP_middle, h] <;> omega

theorem cntNdz_middle (l1 l2 : List Token) (t : Token) (d k : ℕ) :
    cntNdz (l1 ++ t :: l2) d k
      = cntNdz (l1 ++ l2) d k + if t.d = d ∧ t.z = k then 1 else 0 := by
  by_cases h : t.d = d ∧ t.z = k <;>
    simp [cntNdz, countP_middle, h] <;> omega

theorem cntNz_middle (l1 l2 : List Token) (t : Token) (k : ℕ) :
    cntNz (l1 ++ t :: l2) k = cntNz (l1 ++ l2) k + if t.z = k then 1 else 0 := by
  by_cases h : t.z = k <;>
    simp [cntNz, countP_middle, h] <;> omega

theorem CEq_nil : CEq zeroCounts [] := by
  refine ⟨fun k w => ?_, fun d k => ?_, fun k => ?_⟩ <;>
    simp [zeroCounts, cntNzw, cntNdz, cntNz]

theorem CEq_decr (c : Counts) (l1 l2 : List Token) (t : Token)
    (h : CEq c (l1 ++ t :: l2)) : CEq (decrC c t) (l1 ++ l2) := by
  obtain ⟨h1, h2, h3⟩ := h
  refine ⟨fun k w => ?_, fun d k => ?_, fun k => ?_⟩
  · dsimp [decrC]
    rw [h1 k w, cntNzw_middle]
    split <;> omega
  · dsimp [decrC]
    rw [h2 d k, cntNdz_middle]
    split <;> omega
  · dsimp [decrC]
    rw [h3 k, cntNz_middle]
    split <;> omega

theorem CEq_incr (c : Counts) (l1 l2 : List Token) (t : Token)
    (h : CEq c (l1 ++ l2)) : CEq (incrC c t) (l1 ++ t :: l2) := by
  obtain ⟨h1, h2, h3⟩ := h
  refine ⟨fun k w => ?_, fun d k => ?_, fun k => ?_⟩
  · dsimp [incrC]
    rw [h1 k w, cntNzw_middle]
    split <;> omega
  · dsimp [incrC]
    rw [h2 d k, cntNdz_middle]
    split <;> omega
  · dsimp [incrC]
    rw [h3 k, cntNz_middle]
    split <;> omega

theorem selectAux_lt (thresh : ℚ) :
    ∀ (l : List ℚ) (acc : ℚ), l ≠ [] → selectAux thresh acc l < l.length
  | [], _, h => absurd rfl h
  | [_], _, _ => by simp [selectAux]
  | s :: s2 :: rest, acc, _ => by
      rw [selectAux]
      split
      · simp
      · have ih := selectAux_lt thresh (s2 :: rest) (acc + s) (by simp)
        simp only [List.length_cons] at ih ⊢
        omega

theorem selectTopic_lt (scores : List ℚ) (r : ℚ) (h : scores ≠ []) :
    selectTopic scores r < scores.length :=
  selectAux_lt _ scores _ h

theorem topicScores_length (c : Counts) (alpha eta : ℚ) (V K w d : ℕ) :
    (topicScores c alpha eta V K w d).length = K := by
  simp [topicScores]

theorem sampleToken_wd (alpha eta : ℚ) (V K : ℕ) (c : Counts) (t : Token) (r : ℚ) :
    (sampleToken alpha eta V K c t r).1.w = t.w ∧
    (sampleToken alpha eta V K c t r).1.d = t.d := ⟨rfl, rfl⟩

theorem sampleToken_z_lt (alpha eta : ℚ) (V K : ℕ) (c : Counts) (t : Token) (r : ℚ)
    (hK : 0 < K) : (sampleToken alpha eta V K c t r).1.z < K := by
  have h : (topicScores (decrC c t) alpha eta V K t.w t.d) ≠ [] := by
    have := topicScores_length (decrC c t) alpha eta V K t.w t.d
    intro he
    rw [he] at this
    simp at this
    omega
  have := selectTopic_lt (topicScores (decrC c t) alpha eta V K t.w t.d) r h
  rw [topicScores_length] at this
  exact this

theorem sampleToken_CEq (alpha eta : ℚ) (V K : ℕ) (c : Counts) (t : Token) (r : ℚ)
    (l1 l2 : List Token) (h : CEq c (l1 ++ t :: l2)) :
    CEq (sampleToken alpha eta V K c t r).2 (l1 ++ (sampleToken alpha eta V K c t r).1 :: l2) :=
  CEq_incr _ _ _ _ (CEq_decr _ _ _ _ h)

theorem sweepGo_spec (alpha eta : ℚ) (V K : ℕ) (pool : List ℚ) :
    ∀ (l : List Token) (c : Counts) (i : ℕ) (pre : List Token),
      CEq c (pre ++ l) →
      CEq (sweepGo alpha eta V K pool l c i).2 (pre ++ (sweepGo alpha eta V K pool l c i).1) ∧
      (sweepGo alpha eta V K pool l c i).1.map (fun t => (t.w, t.d))
        = l.map (fun t => (t.w, t.d)) ∧
      (0 < K → ∀ t' ∈ (sweepGo alpha eta V K pool l c i).1, t'.z < K)
  | [], c, i, pre, h => by
      refine ⟨by simpa [sweepGo] using h, by simp [sweepGo], by simp [sweepGo]⟩
  | t :: rest, c, i, pre, h => by
      rw [sweepGo]
      set r := pool.getD (i % pool.length) 0 with hr
      set p := sampleToken alpha eta V K c t r with hp
      have hCEq : CEq p.2 ((pre ++ [p.1]) ++ rest) := by
        rw [List.append_assoc, List.singleton_append]
        exact sampleToken_CEq alpha eta V K c t r pre rest h
      have ih := sweepGo_spec alpha eta V K pool rest p.2 (i + 1) (pre ++ [p.1]) hCEq
      obtain ⟨ih1, ih2, ih3⟩ := ih
      refine ⟨?_, ?_, ?_⟩
      · simpa [List.append_assoc] using ih1
      · simp only [List.map_cons, ih2]
        have hw := (sampleToken_wd alpha eta V K c t r).1
        have hd := (sampleToken_wd alpha eta V K c t r).2
        rw [hw, hd]
      · intro hK t' ht'
        simp only [List.mem_cons] at ht'
        rcases ht' with h1 | h2
        · rw [h1]
          exact sampleToken_z_lt alpha eta V K c t r hK
        · exact ih3 hK t' h2

theorem initGo_spec (K : ℕ) (ints : ℕ → ℕ) :
    ∀ (l : List (ℕ × ℕ)) (i : ℕ) (c : Counts) (pre : List Token),
      CEq c pre →
      CEq (initGo K ints l i c).2 (pre ++ (initGo K ints l i c).1) ∧
      (initGo K ints l i c).1.map (fun t => (t.w, t.d)) = l ∧
      (0 < K → ∀ t' ∈ (initGo K ints l i c).1, t'.z < K)
  | [], i, c, pre, h => by
      refine ⟨by simpa [initGo] using h, by simp [initGo], by simp [initGo]⟩
  | wd :: rest, i, c, pre, h => by
      rw [initGo]
      set t : Token := ⟨wd.1, wd.2, ints i % K⟩ with ht
      have hCEq : CEq (incrC c t) ((pre ++ [t]) ++ []) := by
        rw [List.append_nil]
        have := CEq_incr c pre [] t (by simpa using h)
        simpa using this
      have ih := initGo_spec K ints rest (i + 1) (incrC c t) (pre ++ [t])
        (by simpa using hCEq)
      obtain ⟨ih1, ih2, ih3⟩ := ih
      refine ⟨?_, ?_, ?_⟩
      · simpa [List.append_assoc] using ih1
      · simp [ih2, ht]
      · intro hK t' ht'
        simp only [List.mem_cons] at ht'
        rcases ht' with h1 | h2
        · rw [h1, ht]
          exact Nat.mod_lt _ hK
        · exact ih3 hK t' h2

theorem rowTokensGo_mem (d : ℕ) :
    ∀ (row : List ℕ) (w : ℕ) (p : ℕ × ℕ), p ∈ rowTokensGo d w row →
      p.2 = d ∧ p.1 < w + row.length
  | [], w, p, h => by simp [rowTokensGo] at h
  | c :: rest, w, p, h => by
      rw [rowTokensGo] at h
      rcases List.mem_append.1 h with h1 | h2
      · have := List.eq_of_mem_replicate h1
        rw [this]
        simp
      · have ih := rowTokensGo_mem d rest (w + 1) p h2
        simp at ih ⊢
        omega

theorem mtlGo_mem (V : ℕ) :
    ∀ (X : List (List ℕ)) (d0 : ℕ), (∀ row ∈ X, row.length = V) →
      ∀ p ∈ mtlGo d0 X, p.1 < V ∧ p.2 < d0 + X.length
  | [], d0, _, p, h => by simp [mtlGo] at h
  | row :: rest, d0, hV, p, h => by
      rw [mtlGo] at h
      rcases List.mem_append.1 h with h1 | h2
      · have := rowTokensGo_mem d0 row 0 p h1
        have hr : row.length = V := hV row (by simp)
        simp at this ⊢
        omega
      · have ih := mtlGo_mem V rest (d0 + 1) (fun r hr => hV r (by simp [hr])) p h2
        simp at ih ⊢
        omega

theorem matrix_to_lists_mem (V : ℕ) (X : List (List ℕ))
    (hV : ∀ row ∈ X, row.length = V) :
    ∀ p ∈ matrix_to_lists X, p.1 < V ∧ p.2 < X.length := by
  intro p hp
  have := mtlGo_mem V X 0 hV p hp
  simpa using this

theorem rowTokensGo_length (d : ℕ) :
    ∀ (row : List ℕ) (w : ℕ), (rowTokensGo d w row).length = row.sum
  | [], _ => by simp [rowTokensGo]
  | c :: rest, w => by
      rw [rowTokensGo]
      simp [rowTokensGo_length d rest (w + 1)]

theorem mtlGo_length : ∀ (X : List (List ℕ)) (d0 : ℕ),
    (mtlGo d0 X).length = totalX X
  | [], _ => by simp [mtlGo, totalX]
  | row :: rest, d0 => by
      rw [mtlGo]
      simp [rowTokensGo_length, mtlGo_length rest (d0 + 1), totalX]

theorem matrix_to_lists_length (X : List (List ℕ)) :
    (matrix_to_lists X).length = totalX X := mtlGo_length X 0

theorem cntNzw_cons (t : Token) (ts : List Token) (k w : ℕ) :
    cntNzw (t :: ts) k w = cntNzw ts k w + if t.z = k ∧ t.w = w then 1 else 0 :=
  cntNzw_middle [] ts t k w

theorem cntNdz_cons (t : Token) (ts : List Token) (d k : ℕ) :
    cntNdz (t :: ts) d k = cntNdz ts d k + if t.d = d ∧ t.z = k then 1 else 0 :=
  cntNdz_middle [] ts t d k

theorem cntNz_cons (t : Token) (ts : List Token) (k : ℕ) :
    cntNz (t :: ts) k = cntNz ts k + if t.z = k then 1 else 0 :=
  cntNz_middle [] ts t k

theorem sum_cntNz (K : ℕ) :
    ∀ ts : List Token, (∀ t ∈ ts, t.z < K) →
      (Finset.range K).sum (fun k => cntNz ts k) = ts.length
  | [], _ => by simp [cntNz]
  | t :: ts, h => by
      have ih := sum_cntNz K ts (fun t' ht' => h t' (by simp [ht']))
      have hz : t.z ∈ Finset.range K := by
        simp
        exact h t (by simp)
      calc (Finset.range K).sum (fun k => cntNz (t :: ts) k)
          = (Finset.range K).sum (fun k => cntNz ts k + if t.z = k then 1 else 0) := by
            refine Finset.sum_congr rfl fun k _ => ?_
            exact cntNz_cons t ts k
        _ = (Finset.range K).sum (fun k => cntNz ts k)
            + (Finset.range K).sum (fun k => if t.z = k then (1 : ℤ) else 0) :=
            Finset.sum_add_distrib
        _ = (ts.length : ℤ) + 1 := by
            rw [ih, Finset.sum_ite_eq]
            simp [hz]
        _ = ((t :: ts).length : ℤ) := by
            simp

theorem sum_w_cntNzw (V : ℕ) :
    ∀ ts : List Token, (∀ t ∈ ts, t.w < V) →
      ∀ k, (Finset.range V).sum (fun w => cntNzw ts k w) = cntNz ts k
  | [], _ => by simp [cntNzw, cntNz]
  | t :: ts, h => by
      intro k
      have ih := sum_w_cntNzw V ts (fun t' ht' => h t' (by simp [ht'])) k
      have hw : t.w ∈ Finset.range V := by
        simp
        exact h t (by simp)
      calc (Finset.range V).sum (fun w => cntNzw (t :: ts) k w)
          = (Finset.range V).sum
              (fun w => cntNzw ts k w + if t.z = k ∧ t.w = w then 1 else 0) := by
            refine Finset.sum_congr rfl fun w _ => ?_
            exact cntNzw_cons t ts k w
        _ = (Finset.range V).sum (fun w => cntNzw ts k w)
            + (Finset.range V).sum (fun w => if t.z = k ∧ t.w = w then (1 : ℤ) else 0) :=
            Finset.sum_add_distrib
        _ = cntNz ts k + if t.z = k then 1 else 0 := by
            rw [ih]
            congr 1
            by_cases hz : t.z = k
            · simp only [hz, true_and]
              rw [Finset.sum_ite_eq]
              simp [hw]
            · simp [hz]
        _ = cntNz (t :: ts) k := (cntNz_cons t ts k).symm

theorem sum_d_cntNdz (D : ℕ) :
    ∀ ts : List Token, (∀ t ∈ ts, t.d < D) →
      ∀ k, (Finset.range D).sum (fun d => cntNdz ts d k) = cntNz ts k
  | [], _ => by simp [cntNdz, cntNz]
  | t :: ts, h => by
      intro k
      have ih := sum_d_cntNdz D ts (fun t' ht' => h t' (by simp [ht'])) k
      have hd : t.d ∈ Finset.range D := by
        simp
        exact h t (by simp)
      calc (Finset.range D).sum (fun d => cntNdz (t :: ts) d k)
          = (Finset.range D).sum
              (fun d => cntNdz ts d k + if t.d = d ∧ t.z = k then 1 else 0) := by
            refine Finset.sum_congr rfl fun d _ => ?_
            exact cntNdz_cons t ts d k
        _ = (Finset.range D).sum (fun d => cntNdz ts d k)
            + (Finset.range D).sum (fun d => if t.d = d ∧ t.z = k then (1 : ℤ) else 0) :=
            Finset.sum_add_distrib
        _ = cntNz ts k + if t.z = k then 1 else 0 := by
            rw [ih]
            congr 1
            by_cases hz : t.z = k
            · simp only [hz, and_true]
              rw [Finset.sum_ite_eq]
              simp [hd]
            · simp [hz]
        _ = cntNz (t :: ts) k := (cntNz_cons t ts k).symm

theorem consv_of_CEq (K V D : ℕ) (c : Counts) (ts : List Token)
    (hC : CEq c ts) (hwf : ∀ t ∈ ts, t.w < V ∧ t.d < D ∧ t.z < K) :
    consv K V D (ts.length : ℤ) c := by
  obtain ⟨h1, h2, h3⟩ := hC
  have hw : ∀ t ∈ ts, t.w < V := fun t ht => (hwf t ht).1
  have hd : ∀ t ∈ ts, t.d < D := fun t ht => (hwf t ht).2.1
  have hz : ∀ t ∈ ts, t.z < K := fun t ht => (hwf t ht).2.2
  have hnz : (Finset.range K).sum (fun k => c.nz k) = (ts.length : ℤ) := by
    rw [Finset.sum_congr rfl fun k _ => h3 k]
    exact sum_cntNz K ts hz
  refine ⟨?_, ?_, hnz, ?_, ?_⟩
  · calc (Finset.range K).sum (fun k => (Finset.range V).sum fun w => c.nzw k w)
        = (Finset.range K).sum (fun k => cntNz ts k) := by
          refine Finset.sum_congr rfl fun k _ => ?_
          rw [Finset.sum_congr rfl fun w _ => h1 k w]
          exact sum_w_cntNzw V ts hw k
      _ = (ts.length : ℤ) := sum_cntNz K ts hz
  · calc (Finset.range D).sum (fun d => (Finset.range K).sum fun k => c.ndz d k)
        = (Finset.range K).sum (fun k => (Finset.range D).sum fun d => c.ndz d k) :=
          Finset.sum_comm
      _ = (Finset.range K).sum (fun k => cntNz ts k) := by
          refine Finset.sum_congr rfl fun k _ => ?_
          rw [Finset.sum_congr rfl fun d _ => h2 d k]
          exact sum_d_cntNdz D ts hd k
      _ = (ts.length : ℤ) := sum_cntNz K ts hz
  · intro k _
    rw [h3 k, Finset.sum_congr rfl fun w _ => h1 k w]
    exact (sum_w_cntNzw V ts hw k).symm
  · intro k _
    rw [h3 k, Finset.sum_congr rfl fun d _ => h2 d k]
    exact (sum_d_cntNdz D ts hd k).symm

theorem getD_cons_eraseIdx_perm :
    ∀ (l : List ℚ) (j : ℕ), j < l.length → (l.getD j 0 :: l.eraseIdx j).Perm l
  | [], j, h => by simp at h
  | a :: l, 0, _ => by simp
  | a :: l, j + 1, h => by
      have hj : j < l.length := by
        simp at h
        omega
      have ih := getD_cons_eraseIdx_perm l j hj
      have he : ((a :: l).getD (j + 1) 0 :: (a :: l).eraseIdx (j + 1))
          = (l.getD j 0 :: a :: l.eraseIdx j) := by simp
      rw [he]
      exact (List.Perm.swap a (l.getD j 0) (l.eraseIdx j)).trans (ih.cons a)

theorem shuffleGo_perm (ints : ℕ → ℕ) :
    ∀ (fuel : ℕ) (l : List ℚ) (pos : ℕ), l.length = fuel →
      (shuffleGo ints pos fuel l).Perm l
  | 0, l, pos, h => by
      have : l = [] := List.eq_nil_of_length_eq_zero h
      simp [this, shuffleGo]
  | fuel + 1, [], pos, h => by simp at h
  | fuel + 1, a :: l, pos, h => by
      rw [shuffleGo]
      set j := ints pos % (a :: l).length with hj
      have hjlt : j < (a :: l).length := Nat.mod_lt _ (by simp)
      have hlen : ((a :: l).eraseIdx j).length = fuel := by
        rw [List.length_eraseIdx]
        simp only [hjlt, if_pos]
        simp at h ⊢
        omega
      have ih := shuffleGo_perm ints fuel ((a :: l).eraseIdx j) (pos + 1) hlen
      exact (ih.cons _).trans (getD_cons_eraseIdx_perm (a :: l) j hjlt)

theorem shuffle_perm (ints : ℕ → ℕ) (pos : ℕ) (l : List ℚ) :
    (shuffle ints pos l).Perm l := shuffleGo_perm ints l.length l pos rfl

theorem shuffle_length (ints : ℕ → ℕ) (pos : ℕ) (l : List ℚ) :
    (shuffle ints pos l).length = l.length := (shuffle_perm ints pos l).length_eq

theorem sweepStep_inv (seed : RandomState) (alpha eta : ℚ) (V K D : ℕ)
    (s : SweepSt) (hK : 0 < K) (h : InvSt K V D s) :
    InvSt K V D (sweepStep seed alpha eta V K s) ∧
    (sweepStep seed alpha eta V K s).1.length = s.1.length := by
  obtain ⟨hC, hwf⟩ := h
  have hspec := sweepGo_spec alpha eta V K (shuffle seed.ints 0 s.2.2) s.1 s.2.1 0 []
    (by simpa using hC)
  obtain ⟨h1, h2, h3⟩ := hspec
  refine ⟨⟨by simpa using h1, ?_⟩, ?_⟩
  · intro t' ht'
    have hmem : (t'.w, t'.d) ∈ (sweepStep seed alpha eta V K s).1.map
        (fun t => (t.w, t.d)) := List.mem_map_of_mem _ ht'
    rw [show (sweepStep seed alpha eta V K s).1
        = (sweepGo alpha eta V K (shuffle seed.ints 0 s.2.2) s.1 s.2.1 0).1 from rfl,
      h2] at hmem
    obtain ⟨t, ht, hEq⟩ := List.mem_map.1 hmem
    obtain ⟨hws, hds, _⟩ := hwf t ht
    have hw : t'.w = t.w := by
      have := congrArg Prod.fst hEq
      simpa using this.symm
    have hd : t'.d = t.d := by
      have := congrArg Prod.snd hEq
      simpa using this.symm
    exact ⟨by rw [hw]; exact hws, by rw [hd]; exact hds, h3 hK t' ht'⟩
  · have := congrArg List.length h2
    simpa using this

theorem sweepIter_inv (seed : RandomState) (alpha eta : ℚ) (V K D : ℕ)
    (hK : 0 < K) :
    ∀ (n : ℕ) (s : SweepSt), InvSt K V D s →
      InvSt K V D (sweepIter seed alpha eta V K n s) ∧
      (sweepIter seed alpha eta V K n s).1.length = s.1.length
  | 0, s, h => ⟨h, rfl⟩
  | n + 1, s, h => by
      have ih := sweepIter_inv seed alpha eta V K D hK n s h
      rw [sweepIter]
      have step := sweepStep_inv seed alpha eta V K D _ hK ih.1
      exact ⟨step.1, step.2.trans ih.2⟩

theorem initCore_inv (K V : ℕ) (ints : ℕ → ℕ) (X : List (List ℕ)) (pool : List ℚ)
    (hK : 0 < K) (hV : ∀ row ∈ X, row.length = V) :
    InvSt K V X.length ((initCore K ints X).1, (initCore K ints X).2, pool) ∧
    (initCore K ints X).1.length = totalX X := by
  have hspec := initGo_spec K ints (matrix_to_lists X) 0 zeroCounts [] CEq_nil
  obtain ⟨h1, h2, h3⟩ := hspec
  refine ⟨⟨by simpa [initCore] using h1, ?_⟩, ?_⟩
  · intro t ht
    have hmem : (t.w, t.d) ∈ (initCore K ints X).1.map (fun t => (t.w, t.d)) :=
      List.mem_map_of_mem _ ht
    rw [show (initCore K ints X).1 = (initGo K ints (matrix_to_lists X) 0 zeroCounts).1
        from rfl, h2] at hmem
    have := matrix_to_lists_mem V X hV _ hmem
    exact ⟨this.1, this.2, h3 hK t ht⟩
  · have := congrArg List.length h2
    simp at this
    rw [show (initCore K ints X).1 = (initGo K ints (matrix_to_lists X) 0 zeroCounts).1
        from rfl, this, matrix_to_lists_length]

theorem preFit_fields (m : LDAModel) (X : List (List ℕ)) :
    (preFit m X).components = some (phiOf (preFit m X).counts m.eta (ncols X)) ∧
    (preFit m X).theta = some (thetaOf (preFit m X).counts m.alpha m.n_topics) ∧
    (preFit m X).phi = (preFit m X).components :=
  ⟨rfl, rfl, rfl⟩

theorem phiOf_rows (c : Counts) (eta : ℚ) (V : ℕ) (he : 0 < eta) (hV : 0 < V)
    (hpos : ∀ k w, 0 ≤ c.nzw k w) :
    ∀ k, (Finset.range V).sum (fun w => phiOf c eta V k w) = 1 ∧
      ∀ w, 0 < phiOf c eta V k w := by
  intro k
  have hterm : ∀ w, 0 < (c.nzw k w : ℚ) + eta := by
    intro w
    have h0 : (0 : ℚ) ≤ (c.nzw k w : ℚ) := by exact_mod_cast hpos k w
    linarith
  have hS : 0 < (Finset.range V).sum (fun w' => (c.nzw k w' : ℚ) + eta) :=
    Finset.sum_pos (fun w _ => hterm w) (by simp [Finset.nonempty_range_iff]; omega)
  constructor
  · simp only [phiOf]
    rw [← Finset.sum_div]
    exact div_self (ne_of_gt hS)
  · intro w
    exact div_pos (hterm w) hS

theorem thetaOf_rows (c : Counts) (alpha : ℚ) (K : ℕ) (ha : 0 < alpha) (hK : 0 < K)
    (hpos : ∀ d k, 0 ≤ c.ndz d k) :
    ∀ d, (Finset.range K).sum (fun k => thetaOf c alpha K d k) = 1 ∧
      ∀ k, 0 < thetaOf c alpha K d k := by
  intro d
  have hterm : ∀ k, 0 < (c.ndz d k : ℚ) + alpha := by
    intro k
    have h0 : (0 : ℚ) ≤ (c.ndz d k : ℚ) := by exact_mod_cast hpos d k
    linarith
  have hS : 0 < (Finset.range K).sum (fun k' => (c.ndz d k' : ℚ) + alpha) :=
    Finset.sum_pos (fun k _ => hterm k) (by simp [Finset.nonempty_range_iff]; omega)
  constructor
  · simp only [thetaOf]
    rw [← Finset.sum_div]
    exact div_self (ne_of_gt hS)
  · intro k
    exact div_pos (hterm k) hS

/-- C4: the zero-skipping `_loglikelihood` of the source equals the same
double sums with no skipping, exactly (hence within any tolerance, in
particular 1e-9): each skipped cell contributes
`lg(eta + 0) - lg(eta) = 0` (and `lg(alpha + 0) - lg(alpha) = 0`), for
any log-gamma function and any nonnegative count tables. -/
theorem lda_loglikelihood_skip_eq_full (lg : ℚ → ℚ) (c : Counts) (K V D : ℕ)
    (alpha eta : ℚ)
    (hnzw : ∀ k w, 0 ≤ c.nzw k w) (hndz : ∀ d k, 0 ≤ c.ndz d k) :
    llWZ lg c K V D alpha eta = llWZFull lg c K V D alpha eta ∧
    |llWZ lg c K V D alpha eta - llWZFull lg c K V D alpha eta| ≤ 1 / 1000000000 := by
  have h1 : ∀ k w, (if 0 < c.nzw k w then lg (eta + (c.nzw k w : ℚ)) - lg eta else 0)
      = lg (eta + (c.nzw k w : ℚ)) - lg eta := by
    intro k w
    by_cases h : 0 < c.nzw k w
    · simp [h]
    · have hz : c.nzw k w = 0 := le_antisymm (not_lt.1 h) (hnzw k w)
      simp [h, hz]
  have h2 : ∀ d k, (if 0 < c.ndz d k then lg (alpha + (c.ndz d k : ℚ)) - lg alpha else 0)
      = lg (alpha + (c.ndz d k : ℚ)) - lg alpha := by
    intro d k
    by_cases h : 0 < c.ndz d k
    · simp [h]
    · have hz : c.ndz d k = 0 := le_antisymm (not_lt.1 h) (hndz d k)
      simp [h, hz]
  have heq : llWZ lg c K V D alpha eta = llWZFull lg c K V D alpha eta := by
    unfold llWZ llWZFull
    congr 1
    · congr 1
      refine Finset.sum_congr rfl fun k _ => ?_
      congr 1
      exact Finset.sum_congr rfl fun w _ => h1 k w
    · refine Finset.sum_congr rfl fun d _ => ?_
      congr 1
      exact Finset.sum_congr rfl fun k _ => h2 d k
  refine ⟨heq, ?_⟩
  rw [heq]
  simp

/-- Witness for C4 at a concrete log-gamma function and concrete
tables. -/
theorem lda_loglikelihood_skip_eq_full_witness :
    llWZ (fun q => q * q) ⟨fun _ _ => 1, fun _ _ => 2, fun _ => 3⟩ 2 3 2 1 1
      = llWZFull (fun q => q * q) ⟨fun _ _ => 1, fun _ _ => 2, fun _ => 3⟩ 2 3 2 1 1 :=
  (lda_loglikelihood_skip_eq_full (fun q => q * q)
    ⟨fun _ _ => 1, fun _ _ => 2, fun _ => 3⟩ 2 3 2 1 1
    (fun _ _ => by norm_num) (fun _ _ => by norm_num)).1

/-- C9: the cleanup at the end of `_fit` deletes exactly `WS`, `DS` and
`ZS`; the final count tables, `components_`/`phi_`/`theta_` and every
other attribute survive it unchanged, and the derived matrices remain
available. -/
theorem fit_cleanup_frame (m : LDAModel) (X : List (List ℕ)) :
    fitLDA m X = cleanupFit (preFit m X) ∧
    (fitLDA m X).WS = none ∧ (fitLDA m X).DS = none ∧ (fitLDA m X).ZS = none ∧
    (fitLDA m X).counts = (preFit m X).counts ∧
    (fitLDA m X).components = (preFit m X).components ∧
    (fitLDA m X).phi = (preFit m X).phi ∧
    (fitLDA m X).theta = (preFit m X).theta ∧
    ((fitLDA m X).components).isSome = true ∧
    ((fitLDA m X).phi).isSome = true ∧
    ((fitLDA m X).theta).isSome = true ∧
    (fitLDA m X).n_topics = (preFit m X).n_topics ∧
    (fitLDA m X).n_iter = (preFit m X).n_iter ∧
    (fitLDA m X).alpha = (preFit m X).alpha ∧
    (fitLDA m X).eta = (preFit m X).eta ∧
    (fitLDA m X).seed = (preFit m X).seed ∧
    (fitLDA m X).rands = (preFit m X).rands ∧
    (fitLDA m X).n_features = (preFit m X).n_features :=
  ⟨rfl, rfl, rfl, rfl, rfl, rfl, rfl, rfl, rfl, rfl, rfl, rfl, rfl, rfl, rfl,
   rfl, rfl, rfl⟩

/-- C1: two independent fits with equal seed-derived random sources and
equal hyperparameters produce identical final count tables and the
identical sequence of reported `loglikelihood()` values (the embedded
training loop has no nondeterminism source besides the seeded
generator; the parallel scoring toggle only affects `score`). -/
theorem lda_fit_deterministic (X : List (List ℕ)) (K n_iter : ℕ)
    (a1 a2 e1 e2 : ℚ) (s1 s2 : RandomState) (lg : ℚ → ℚ)
    (hs : s1 = s2) (ha : a1 = a2) (he : e1 = e2) :
    fitCountsOf K n_iter a1 e1 s1 X = fitCountsOf K n_iter a2 e2 s2 X ∧
    fitTrajOf lg K n_iter a1 e1 s1 X = fitTrajOf lg K n_iter a2 e2 s2 X := by
  subst hs
  subst ha
  subst he
  exact ⟨rfl, rfl⟩

/-- Witness for C1 at a concrete configuration. -/
theorem lda_fit_deterministic_witness :
    (exSeedZero = exSeedZero ∧ (1 : ℚ) = 1 ∧ (1 : ℚ) / 100 = 1 / 100) ∧
    fitCountsOf 2 3 1 (1 / 100) exSeedZero [[1, 0], [0, 2]]
      = fitCountsOf 2 3 1 (1 / 100) exSeedZero [[1, 0], [0, 2]] ∧
    fitTrajOf (fun q => q) 2 3 1 (1 / 100) exSeedZero [[1, 0], [0, 2]]
      = fitTrajOf (fun q => q) 2 3 1 (1 / 100) exSeedZero [[1, 0], [0, 2]] :=
  ⟨⟨rfl, rfl, rfl⟩,
   lda_fit_deterministic [[1, 0], [0, 2]] 2 3 1 1 (1 / 100) (1 / 100)
     exSeedZero exSeedZero (fun q => q) rfl rfl rfl⟩

/-- C7: a column-count mismatch makes `score` fail with the dimension
check before any per-document sampling work: the result is the mismatch
error, no document pool is ever handed to the scorer, `self._rands` is
untouched, and the outcome does not depend on the scorer at all. -/
theorem score_dim_mismatch_early (f g : DocScorer) (m : LDAModel)
    (X : List (List ℕ)) (rsArg : Option RandomState)
    (h : ncols X ≠ m.n_features) :
    (scoreLDA f m X rsArg).result
      = .error (.dimensionMismatch (ncols X) m.n_features) ∧
    (scoreLDA f m X rsArg).pools = [] ∧
    (scoreLDA f m X rsArg).randsAfter = m.rands ∧
    scoreLDA f m X rsArg = scoreLDA g m X rsArg := by
  refine ⟨?_, ?_, ?_, ?_⟩ <;> simp [scoreLDA, h]

/-- Witness for C7 at a concrete mismatching matrix. -/
theorem score_dim_mismatch_early_witness :
    (ncols [[1]] ≠ exModelTwoCol.n_features) ∧
    (scoreLDA exScorerOk exModelTwoCol [[1]] none).result
      = .error (.dimensionMismatch (ncols [[1]]) exModelTwoCol.n_features) :=
  ⟨by decide,
   (score_dim_mismatch_early exScorerOk exScorerFail exModelTwoCol [[1]] none
     (by decide)).1⟩

/-- C6 counterexample: a matrix whose first document has zero tokens,
with positive `n_topics`, is accepted by the embedded `_initialize`
without any error — the source performs no shape validation and no
`InvalidShape` error exists, contradicting the claim that such input
fails rather than proceeding. -/
theorem init_accepts_empty_document :
    (ldaInit 1 exSeedZero.ints [[0], [1]]).isOk = true := by decide

/-- C6 amended: with a positive integer `n_topics`, initialization
always proceeds (returning the populated tables), even when some
document has zero tokens; no shape check of any kind is performed. -/
theorem init_no_shape_check (K : ℕ) (ints : ℕ → ℕ) (X : List (List ℕ))
    (hK : 0 < K) :
    (ldaInit K ints X).isOk = true ∧
    ldaInit K ints X = .ok (initCore K ints X) := by
  have hno : ¬(K = 0 ∧ matrix_to_lists X ≠ []) := by
    rintro ⟨h0, _⟩
    omega
  refine ⟨?_, ?_⟩ <;> simp [ldaInit, hno, Except.isOk, Except.toBool]

/-- Witness for the amended C6. -/
theorem init_no_shape_check_witness :
    0 < 1 ∧ (ldaInit 1 exSeedZero.ints [[0], [1], []]).isOk = true :=
  ⟨by decide, (init_no_shape_check 1 exSeedZero.ints [[0], [1], []] (by decide)).1⟩

/-- C2: for any input matrix (rows of width `V`), positive `K`, any
seed streams and any draw pool, the count tables produced by
`_initialize` and carried through any number of full Gibbs sweeps
satisfy the conservation identities: all three tables sum to the total
token count `N = np.sum(X)`, and `nz` is both the row-sum of `nzw` and
the column-sum of `ndz`. -/
theorem lda_counts_conserved (X : List (List ℕ)) (V K : ℕ) (seed : RandomState)
    (alpha eta : ℚ) (pool : List ℚ) (n : ℕ)
    (hV : ∀ row ∈ X, row.length = V) (hK : 0 < K) :
    consv K V X.length (totalX X : ℤ)
      (sweepIter seed alpha eta V K n
        ((initCore K seed.ints X).1, (initCore K seed.ints X).2, pool)).2.1 := by
  obtain ⟨hinv0, hlen0⟩ := initCore_inv K V seed.ints X pool hK hV
  obtain ⟨⟨hC, hwf⟩, hlen⟩ := sweepIter_inv seed alpha eta V K X.length hK n _ hinv0
  have hcons := consv_of_CEq K V X.length _ _ hC hwf
  have hN : (sweepIter seed alpha eta V K n
      ((initCore K seed.ints X).1, (initCore K seed.ints X).2, pool)).1.length
      = totalX X := by
    rw [hlen]
    exact hlen0
  rw [hN] at hcons
  exact hcons

/-- Witness for C2 at a concrete matrix, seed and pool. -/
theorem lda_counts_conserved_witness :
    (∀ row ∈ [[1, 0], [0, 2]], List.length row = 2) ∧ 0 < 2 ∧
    consv 2 2 2 (totalX [[1, 0], [0, 2]] : ℤ)
      (sweepIter exSeedZero 1 (1 / 100) 2 2 1
        ((initCore 2 exSeedZero.ints [[1, 0], [0, 2]]).1,
         (initCore 2 exSeedZero.ints [[1, 0], [0, 2]]).2, [0, 1 / 2])).2.1 :=
  ⟨by decide, by decide,
   lda_counts_conserved [[1, 0], [0, 2]] 2 2 exSeedZero 1 (1 / 100) [0, 1 / 2] 1
     (by decide) (by decide)⟩

/-- C3: after a fit with positive `alpha` and `eta` (and nondegenerate
shape), `components_` and `phi_` coincide and are present, every row of
the trained Phi sums to exactly 1 with all entries strictly positive,
and likewise for every row of `theta_`. -/
theorem lda_rows_normalized (X : List (List ℕ)) (K n_iter : ℕ) (alpha eta : ℚ)
    (seed : RandomState)
    (hV : ∀ row ∈ X, row.length = ncols X) (hVpos : 0 < ncols X) (hK : 0 < K)
    (ha : 0 < alpha) (he : 0 < eta) :
    ((fitLDA (mkLDA K n_iter alpha eta seed) X).components
      = some (fittedPhi K n_iter alpha eta seed X)) ∧
    ((fitLDA (mkLDA K n_iter alpha eta seed) X).phi
      = (fitLDA (mkLDA K n_iter alpha eta seed) X).components) ∧
    ((fitLDA (mkLDA K n_iter alpha eta seed) X).theta
      = some (fittedTheta K n_iter alpha eta seed X)) ∧
    (∀ k, k < K →
      (Finset.range (ncols X)).sum (fun w => fittedPhi K n_iter alpha eta seed X k w) = 1 ∧
      ∀ w, w < ncols X → 0 < fittedPhi K n_iter alpha eta seed X k w) ∧
    (∀ d, d < X.length →
      (Finset.range K).sum (fun k => fittedTheta K n_iter alpha eta seed X d k) = 1 ∧
      ∀ k, k < K → 0 < fittedTheta K n_iter alpha eta seed X d k) := by
  have hcounts : (preFit (mkLDA K n_iter alpha eta seed) X).counts
      = (sweepIter seed alpha eta (ncols X) K n_iter
          ((initCore K seed.ints X).1, (initCore K seed.ints X).2,
           (mkLDA K n_iter alpha eta seed).rands)).2.1 := rfl
  obtain ⟨hinv0, _⟩ := initCore_inv K (ncols X) seed.ints X
    (mkLDA K n_iter alpha eta seed).rands hK hV
  obtain ⟨⟨hC, _⟩, _⟩ :=
    sweepIter_inv seed alpha eta (ncols X) K X.length hK n_iter _ hinv0
  have hnzw : ∀ k w, 0 ≤ (preFit (mkLDA K n_iter alpha eta seed) X).counts.nzw k w := by
    intro k w
    rw [hcounts, hC.1 k w]
    exact Int.natCast_nonneg _
  have hndz : ∀ d k, 0 ≤ (preFit (mkLDA K n_iter alpha eta seed) X).counts.ndz d k := by
    intro d k
    rw [hcounts, hC.2.1 d k]
    exact Int.natCast_nonneg _
  have hphi : fittedPhi K n_iter alpha eta seed X
      = phiOf (preFit (mkLDA K n_iter alpha eta seed) X).counts eta (ncols X) := rfl
  have htheta : fittedTheta K n_iter alpha eta seed X
      = thetaOf (preFit (mkLDA K n_iter alpha eta seed) X).counts alpha K := rfl
  refine ⟨rfl, rfl, rfl, ?_, ?_⟩
  · intro k _
    have hrows := phiOf_rows (preFit (mkLDA K n_iter alpha eta seed) X).counts
      eta (ncols X) he hVpos hnzw k
    rw [hphi]
    exact ⟨hrows.1, fun w _ => hrows.2 w⟩
  · intro d _
    have hrows := thetaOf_rows (preFit (mkLDA K n_iter alpha eta seed) X).counts
      alpha K ha hK hndz d
    rw [htheta]
    exact ⟨hrows.1, fun k _ => hrows.2 k⟩

/-- Witness for C3 at a concrete configuration. -/
theorem lda_rows_normalized_witness :
    ((∀ row ∈ [[1, 0], [0, 2]], List.length row = ncols [[1, 0], [0, 2]]) ∧
      0 < ncols [[1, 0], [0, 2]] ∧ 0 < 2 ∧ (0 : ℚ) < 1 ∧ (0 : ℚ) < 1 / 100) ∧
    (∀ k, k < 2 →
      (Finset.range (ncols [[1, 0], [0, 2]])).sum
        (fun w => fittedPhi 2 1 1 (1 / 100) exSeedZero [[1, 0], [0, 2]] k w) = 1 ∧
      ∀ w, w < ncols [[1, 0], [0, 2]] →
        0 < fittedPhi 2 1 1 (1 / 100) exSeedZero [[1, 0], [0, 2]] k w) :=
  ⟨⟨by decide, by decide, by decide, by norm_num, by norm_num⟩,
   (lda_rows_normalized [[1, 0], [0, 2]] 2 1 1 (1 / 100) exSeedZero
     (by decide) (by decide) (by decide) (by norm_num) (by norm_num)).2.2.2.1⟩

/-- C5 counterexample: with `random_state=None`, the pool handed to the
first scored document is `self._rands` exactly as it stood before the
call — no reshuffle precedes the first document's scoring run, although
a reshuffle by the active source would have changed the pool (the
source shuffles only after each document is dispatched, lines 315 and
321). -/
theorem score_pool_not_shuffled_before_first_doc :
    (scoreLDA exScorerOk exModelPool [[1]] none).pools = [[0, 7]] ∧
    exModelPool.rands = [0, 7] ∧
    shuffle exModelPool.seed.ints 0 [0, 7] = [7, 0] :=
  ⟨rfl, rfl, rfl⟩

/-- C5 amended: every reshuffle permutes the pool's multiset in place
(never regenerating values); the pool is reshuffled before each sampling
sweep and the sweep consumes exactly the reshuffled pool; in `score` the
pool is reshuffled after each document's dispatch — hence before every
document after the first — while with `random_state=None` the first
document consumes the pool as it stood before the call. -/
theorem pool_shuffle_schedule :
    (∀ (ints : ℕ → ℕ) (pos : ℕ) (l : List ℚ), (shuffle ints pos l).Perm l) ∧
    (∀ (seed : RandomState) (alpha eta : ℚ) (V K : ℕ) (s : SweepSt),
      (sweepStep seed alpha eta V K s).2.2 = shuffle seed.ints 0 s.2.2 ∧
      (sweepStep seed alpha eta V K s).1
        = (sweepGo alpha eta V K (shuffle seed.ints 0 s.2.2) s.1 s.2.1 0).1) ∧
    (∀ (f : DocScorer) (ints : ℕ → ℕ) (r r2 : List ℕ) (rest : List (List ℕ))
      (pool : List ℚ) (pos : ℕ) (v : ℚ), f r pool = .ok v →
      (scoreLoop f ints (r :: r2 :: rest) pool pos).1.getD 1 []
        = shuffle ints pos pool) ∧
    (∀ (f : DocScorer) (m : LDAModel) (r : List ℕ) (rest : List (List ℕ)),
      ncols (r :: rest) = m.n_features →
      (scoreLDA f m (r :: rest) none).pools.getD 0 [] = m.rands) := by
  refine ⟨shuffle_perm, fun seed alpha eta V K s => ⟨rfl, rfl⟩, ?_, ?_⟩
  · intro f ints r r2 rest pool pos v hf
    cases hf2 : f r2 (shuffle ints pos pool) <;>
      simp [scoreLoop, hf, hf2]
  · intro f m r rest hdim
    cases hfr : f r m.rands <;>
      simp [scoreLDA, hdim, scoreLoop, scorePool0, scorePos0, scoreInts, hfr]

/-- Witness for the amended C5. -/
theorem pool_shuffle_schedule_witness :
    (exScorerOk [1] [0, 7] = .ok 0) ∧
    (scoreLoop exScorerOk (fun _ => 1) [[1], [1]] [0, 7] 0).1.getD 1 []
      = shuffle (fun _ => 1) 0 [0, 7] :=
  ⟨rfl, pool_shuffle_schedule.2.2.1 exScorerOk (fun _ => 1) [1] [1] [] [0, 7]
    0 0 rfl⟩

/-- C8 counterexample: document 0 of the concrete input scores
successfully, yet because document 1 fails, `score` returns only the
raw underlying error — no `ScoringError` type exists, the error carries
no document index, and the successful document's result is not
returned. -/
theorem score_error_discards_results :
    (exScorerFail [0, 1] exModelTwoCol.rands = .ok 3) ∧
    (scoreLDA exScorerFail exModelTwoCol [[0, 1], [1, 0]] none).result
      = .error (.docFail (.wordOutOfVocab 7)) :=
  ⟨rfl, rfl⟩

/-- C8 amended: when a document's scoring fails, `score` has no
handler: the underlying cause propagates unchanged (wrapped in no
index-carrying error), the loop aborts, and no document's result —
including those scored successfully — is returned. -/
theorem score_error_propagates_raw (f : DocScorer) (m : LDAModel) (r : List ℕ)
    (rest : List (List ℕ)) (rsArg : Option RandomState) (e : DocErr)
    (hdim : ncols (r :: rest) = m.n_features)
    (hf : f r (scorePool0 m rsArg) = .error e) :
    (scoreLDA f m (r :: rest) rsArg).result = .error (.docFail e) ∧
    (scoreLDA f m (r :: rest) rsArg).pools = [scorePool0 m rsArg] := by
  refine ⟨?_, ?_⟩ <;> simp [scoreLDA, hdim, scoreLoop, hf, Except.mapError]

/-- Witness for the amended C8. -/
theorem score_error_propagates_raw_witness :
    (ncols [[1, 0]] = exModelTwoCol.n_features) ∧
    (exScorerFail [1, 0] (scorePool0 exModelTwoCol none)
      = .error (.wordOutOfVocab 7)) ∧
    (scoreLDA exScorerFail exModelTwoCol [[1, 0]] none).result
      = .error (.docFail (.wordOutOfVocab 7)) :=
  ⟨by decide, rfl,
   (score_error_propagates_raw exScorerFail exModelTwoCol [1, 0] [] none
     (.wordOutOfVocab 7) (by decide) rfl).1⟩

/-- C10: with an explicit `random_state`, `score` sorts a copy of the
pool before shuffling, so its returned log-probabilities are invariant
under any prior permutation of `self._rands`, and `self._rands` itself
is left unmodified; with `random_state=None` the call shuffles
`self._rands` in place (the model's pool after the call is the pool as
evolved by the loop's shuffles). -/
theorem score_explicit_seed_pool_invariant (f : DocScorer) (m : LDAModel)
    (X : List (List ℕ)) (rs : RandomState) (p1 p2 : List ℚ)
    (hperm : p1.Perm p2) :
    ((scoreLDA f { m with rands := p1 } X (some rs)).result
      = (scoreLDA f { m with rands := p2 } X (some rs)).result) ∧
    ((scoreLDA f { m with rands := p1 } X (some rs)).randsAfter = p1) ∧
    (∀ m' : LDAModel, ncols X = m'.n_features →
      (scoreLDA f m' X none).randsAfter
        = (scoreLoop f m'.seed.ints X m'.rands 0).2.2.1) := by
  have hsort : p1.mergeSort (fun a b => decide (a ≤ b))
      = p2.mergeSort (fun a b => decide (a ≤ b)) := by
    apply List.eq_of_perm_of_sorted (r := (· ≤ ·))
    · exact ((List.mergeSort_perm p1 _).trans hperm).trans
        (List.mergeSort_perm p2 _).symm
    · exact List.sorted_mergeSort' p1
    · exact List.sorted_mergeSort' p2
  have hlen : p1.length = p2.length := hperm.length_eq
  refine ⟨?_, ?_, ?_⟩
  · by_cases hd : ncols X = m.n_features
    · simp only [scoreLDA, scorePool0, scorePos0, scoreInts]
      rw [hsort, hlen]
      simp [hd]
    · simp [scoreLDA, hd]
  · by_cases hd : ncols X = m.n_features <;> simp [scoreLDA, hd]
  · intro m' hd
    simp [scoreLDA, hd, scoreInts, scorePool0, scorePos0]

/-- Witness for C10 at two concrete permuted pools. -/
theorem score_explicit_seed_pool_invariant_witness :
    (([0, 7] : List ℚ).Perm [7, 0]) ∧
    ((scoreLDA exScorerOk { exModelTwoCol with rands := [0, 7] } [[1, 0]]
        (some exSeedOnes)).result
      = (scoreLDA exScorerOk { exModelTwoCol with rands := [7, 0] } [[1, 0]]
        (some exSeedOnes)).result) :=
  ⟨by decide,
   (score_explicit_seed_pool_invariant exScorerOk exModelTwoCol [[1, 0]]
     exSeedOnes [0, 7] [7, 0] (by decide)).1⟩
